import Mathlib

/-!
Verification of the matrix-free PageRank implementation
(`compute_pagerank_inbound` and the `__main__` display loop of
`src/PageRank.py`).

The graph index is built from a finite edge list; scores are modelled as
exact rationals, the per-pass update, the L1 convergence check and the
bounded iteration loop mirror the source line by line.
-/

/-- Node identifiers.  The reference data uses integer node ids. -/
abbrev NodeId := Nat

/-- A directed edge `(source, target)`, one per row of the edge file. -/
abbrev Edge := NodeId × NodeId

/-- The node universe `all_nodes = set(FromNode) ∪ set(ToNode)`,
represented as a duplicate-free list. -/
def nodeList (edges : List Edge) : List NodeId :=
  (edges.map Prod.fst ++ edges.map Prod.snd).dedup

/-- `inbound_links[v]`: the sources `u` of the edges `(u, v)`, collected in
edge-list order (`inbound_links[tgt].append(src)` for every row). -/
def inboundOf (edges : List Edge) (v : NodeId) : List NodeId :=
  (edges.filter (fun e => e.2 == v)).map Prod.fst

/-- `outdegree[u]`: the number of edges whose source is `u`
(`outdegree[src] += 1` for every row). -/
def outdegree (edges : List Edge) (u : NodeId) : Nat :=
  edges.countP (fun e => e.1 == u)

/-- `sum_pr = sum(pagerank.values())`, the previous map summed over all
nodes, recomputed at the start of every pass. -/
def sumPR (edges : List Edge) (pr : NodeId → ℚ) : ℚ :=
  ((nodeList edges).map pr).sum

/-- `in_sum`: the inbound contribution
`Σ over u in inbound_links[v] of pagerank[u] / outdegree[u]`. -/
def inSum (edges : List Edge) (pr : NodeId → ℚ) (v : NodeId) : ℚ :=
  ((inboundOf edges v).map (fun u => pr u / (outdegree edges u : ℚ))).sum

/-- One pass of the loop body:
`new_pagerank[v] = (1 - damping)*(sum_pr / n) + damping*in_sum`,
every new value read from the same previous snapshot `pr`. -/
def step (edges : List Edge) (d : ℚ) (pr : NodeId → ℚ) : NodeId → ℚ :=
  fun v =>
    (1 - d) * (sumPR edges pr / ((nodeList edges).length : ℚ)) + d * inSum edges pr v

/-- `diff = sum(abs(new_pagerank[v] - pagerank[v]) for v in all_nodes)`,
the L1 distance between two score maps over the node universe. -/
def l1diff (nodes : List NodeId) (a b : NodeId → ℚ) : ℚ :=
  (nodes.map (fun v => |a v - b v|)).sum

/-- The initial map: `pagerank = {node: 1.0/n for node in all_nodes}`. -/
def initPR (edges : List Edge) : NodeId → ℚ :=
  fun _ => 1 / ((nodeList edges).length : ℚ)

/-- The bounded iteration `for iteration in range(max_iter)`: each pass
builds `new_pagerank`, replaces the previous map, and breaks as soon as
`diff < tol`.  The first argument counts the remaining iteration budget. -/
def pagerankLoop (edges : List Edge) (d tol : ℚ) : ℕ → (NodeId → ℚ) → (NodeId → ℚ)
  | 0, pr => pr
  | k + 1, pr =>
    if l1diff (nodeList edges) (step edges d pr) pr < tol then step edges d pr
    else pagerankLoop edges d tol k (step edges d pr)

/-- `compute_pagerank_inbound` after the graph index is built: run the
loop from the uniform `1/n` start with budget `maxIter`. -/
def computePagerank (edges : List Edge) (d : ℚ) (maxIter : ℕ) (tol : ℚ) : NodeId → ℚ :=
  pagerankLoop edges d tol maxIter (initPR edges)

/-- The returned dictionary `{node_id: pagerank_score}` as an association
list with one entry per node of the universe. -/
def computePagerankList (edges : List Edge) (d : ℚ) (maxIter : ℕ) (tol : ℚ) :
    List (NodeId × ℚ) :=
  (nodeList edges).map (fun v => (v, computePagerank edges d maxIter tol v))

/-- The sequence of snapshots the loop would produce with no early stop:
`prSeq 0` is the uniform start and `prSeq (k+1)` is one more pass. -/
def prSeq (edges : List Edge) (d : ℚ) : ℕ → (NodeId → ℚ)
  | 0 => initPR edges
  | k + 1 => step edges d (prSeq edges d k)

/-- The L1 variation the convergence check sees at pass `k` (between the
map entering the pass and the map the pass builds). -/
def diffAt (edges : List Edge) (d : ℚ) (k : ℕ) : ℚ :=
  l1diff (nodeList edges) (prSeq edges d (k + 1)) (prSeq edges d k)

/-- The update formula exactly as the specification words it:
`new_pr[v] = (1 - d) * (sum_pr / n) + d * in_sum(v)` with
`in_sum(v) = Σ over u in inbound[v] of pr[u] / out_degree[u]` and
`sum_pr` the sum of the previous map over all nodes.  Stated separately
from `step` so that code and specification can be compared. -/
def specNewPr (edges : List Edge) (d : ℚ) (pr : NodeId → ℚ) (v : NodeId) : ℚ :=
  (1 - d) * (((nodeList edges).map pr).sum / ((nodeList edges).length : ℚ)) +
    d * (((inboundOf edges v).map (fun u => pr u / (outdegree edges u : ℚ))).sum)

/-- Stable insertion by descending score, the comparison
`sorted(pagerank_scores.items(), key=lambda x: x[1], reverse=True)` uses. -/
def insertByScoreDesc (x : NodeId × ℚ) : List (NodeId × ℚ) → List (NodeId × ℚ)
  | [] => [x]
  | y :: ys => if y.2 ≤ x.2 then x :: y :: ys else y :: insertByScoreDesc x ys

/-- Sort the score items by descending score (stable, as Python sort is). -/
def sortByScoreDesc : List (NodeId × ℚ) → List (NodeId × ℚ)
  | [] => []
  | x :: xs => insertByScoreDesc x (sortByScoreDesc xs)

/-- The display loop `for i in range(k): node_id, score = sorted_pr[i]`:
every pass reads `sorted_pr[i]`; an out-of-range read raises IndexError,
modelled as `none`. -/
def displayIndices (sortedPr : List (NodeId × ℚ)) : ℕ → Option (List (NodeId × ℚ))
  | 0 => some []
  | k + 1 =>
    match displayIndices sortedPr k, sortedPr[k]? with
    | some acc, some x => some (acc ++ [x])
    | _, _ => none

/-- The `__main__` pipeline after the scores are computed: sort the score
items by descending score and run the top-20 display loop. -/
def top20Run (edges : List Edge) (d : ℚ) (maxIter : ℕ) (tol : ℚ) :
    Option (List (NodeId × ℚ)) :=
  displayIndices (sortByScoreDesc (computePagerankList edges d maxIter tol)) 20

/-! ### List-sum helper lemmas -/

lemma qsum_zero {α : Type} (l : List α) : (l.map (fun _ => (0 : ℚ))).sum = 0 := by
  induction l with
  | nil => simp
  | cons x xs ih => simp [ih]

lemma qsum_map_add {α : Type} (l : List α) (f g : α → ℚ) :
    (l.map (fun x => f x + g x)).sum = (l.map f).sum + (l.map g).sum := by
  induction l with
  | nil => simp
  | cons x xs ih => simp only [List.map_cons, List.sum_cons, ih]; ring

lemma qsum_map_sub {α : Type} (l : List α) (f g : α → ℚ) :
    (l.map (fun x => f x - g x)).sum = (l.map f).sum - (l.map g).sum := by
  induction l with
  | nil => simp
  | cons x xs ih => simp only [List.map_cons, List.sum_cons, ih]; ring

lemma qsum_map_mul {α : Type} (l : List α) (c : ℚ) (f : α → ℚ) :
    (l.map (fun x => c * f x)).sum = c * (l.map f).sum := by
  induction l with
  | nil => simp
  | cons x xs ih => simp only [List.map_cons, List.sum_cons, ih]; ring

lemma qsum_const {α : Type} (l : List α) (c : ℚ) :
    (l.map (fun _ => c)).sum = (l.length : ℚ) * c := by
  induction l with
  | nil => simp
  | cons x xs ih => simp only [List.map_cons, List.sum_cons, List.length_cons, ih]; push_cast; ring

lemma qsum_nonneg {α : Type} (l : List α) (f : α → ℚ) (h : ∀ x ∈ l, 0 ≤ f x) :
    0 ≤ (l.map f).sum := by
  induction l with
  | nil => simp
  | cons x xs ih =>
    simp only [List.map_cons, List.sum_cons]
    have h1 := h x (List.mem_cons_self x xs)
    have h2 := ih (fun y hy => h y (List.mem_cons_of_mem x hy))
    linarith

lemma qabs_sum_le {α : Type} (l : List α) (f : α → ℚ) :
    |(l.map f).sum| ≤ (l.map (fun x => |f x|)).sum := by
  induction l with
  | nil => simp
  | cons x xs ih =>
    simp only [List.map_cons, List.sum_cons]
    calc |f x + (xs.map f).sum| ≤ |f x| + |(xs.map f).sum| := abs_add _ _
      _ ≤ |f x| + (xs.map (fun x => |f x|)).sum := by linarith

lemma qsum_ite_mem (a : NodeId) (g : NodeId → ℚ) :
    ∀ (nodes : List NodeId), nodes.Nodup → a ∈ nodes →
      (nodes.map (fun v => if a = v then g v else 0)).sum = g a := by
  intro nodes
  induction nodes with
  | nil => intro _ ha; cases ha
  | cons x xs ih =>
    intro hnd ha
    rcases List.nodup_cons.mp hnd with ⟨hx, hxs⟩
    rcases List.mem_cons.mp ha with rfl | hmem
    · simp only [List.map_cons, List.sum_cons]
      have hz : xs.map (fun v => if a = v then g v else 0) = xs.map (fun _ => (0 : ℚ)) :=
        List.map_congr_left (fun v hv => by
          have hav : a ≠ v := fun h => hx (h ▸ hv)
          simp [hav])
      rw [hz, qsum_zero]
      simp
    · have hax : a ≠ x := fun h => hx (h ▸ hmem)
      simp only [List.map_cons, List.sum_cons, if_neg hax]
      rw [ih hxs hmem]
      ring

lemma qsum_ite_const (a : NodeId) (c : ℚ) (nodes : List NodeId) (hnd : nodes.Nodup)
    (ha : a ∈ nodes) :
    (nodes.map (fun v => if a = v then c else 0)).sum = c := by
  simpa using qsum_ite_mem a (fun _ => c) nodes hnd ha

/-! ### Graph-index structure lemmas -/

lemma inboundOf_cons (e : Edge) (rest : List Edge) (v : NodeId) :
    inboundOf (e :: rest) v
      = if e.2 = v then e.1 :: inboundOf rest v else inboundOf rest v := by
  by_cases h : e.2 = v
  · simp [inboundOf, List.filter_cons, h]
  · simp [inboundOf, List.filter_cons, h]

lemma outdegree_cons (e : Edge) (rest : List Edge) (u : NodeId) :
    outdegree (e :: rest) u = outdegree rest u + if e.1 = u then 1 else 0 := by
  by_cases h : e.1 = u <;> simp [outdegree, List.countP_cons, h]

lemma edge_of_mem_inbound {edges : List Edge} {u v : NodeId} (h : u ∈ inboundOf edges v) :
    (u, v) ∈ edges := by
  rcases List.mem_map.mp h with ⟨⟨a, b⟩, he, hfst⟩
  rcases List.mem_filter.mp he with ⟨hmem, hb⟩
  simp only at hfst
  have hb2 : b = v := by simpa using hb
  subst hfst; subst hb2
  exact hmem

lemma mem_nodeList_of_src {edges : List Edge} {e : Edge} (h : e ∈ edges) :
    e.1 ∈ nodeList edges := by
  unfold nodeList
  rw [List.mem_dedup]
  exact List.mem_append_left _ (List.mem_map_of_mem Prod.fst h)

lemma mem_nodeList_of_tgt {edges : List Edge} {e : Edge} (h : e ∈ edges) :
    e.2 ∈ nodeList edges := by
  unfold nodeList
  rw [List.mem_dedup]
  exact List.mem_append_right _ (List.mem_map_of_mem Prod.snd h)

lemma nodeList_nodup (edges : List Edge) : (nodeList edges).Nodup :=
  List.nodup_dedup _

lemma src_mem_nodeList_of_mem_inbound {edges : List Edge} {u v : NodeId}
    (h : u ∈ inboundOf edges v) : u ∈ nodeList edges :=
  mem_nodeList_of_src (edge_of_mem_inbound h)

lemma outdegree_pos_of_mem_inbound {edges : List Edge} {u v : NodeId}
    (h : u ∈ inboundOf edges v) : 0 < outdegree edges u := by
  have hmem := edge_of_mem_inbound h
  unfold outdegree
  rw [List.countP_pos_iff]
  exact ⟨(u, v), hmem, by simp⟩

/-! ### Double-counting lemmas: inbound sums versus edge sums -/

lemma sum_over_inbound (nodes : List NodeId) (hnd : nodes.Nodup) (f : NodeId → ℚ) :
    ∀ (edges : List Edge), (∀ e ∈ edges, e.2 ∈ nodes) →
      (nodes.map (fun v => ((inboundOf edges v).map f).sum)).sum
        = (edges.map (fun e => f e.1)).sum := by
  intro edges
  induction edges with
  | nil => intro _; simp [inboundOf, qsum_zero]
  | cons e rest ih =>
    intro htgt
    have hrest := fun x hx => htgt x (List.mem_cons_of_mem _ hx)
    have hmem : e.2 ∈ nodes := htgt e (List.mem_cons_self e rest)
    have hfun : ∀ v ∈ nodes,
        ((inboundOf (e :: rest) v).map f).sum
          = (if e.2 = v then f e.1 else 0) + ((inboundOf rest v).map f).sum := by
      intro v _
      rw [inboundOf_cons]
      by_cases h : e.2 = v
      · simp [h]
      · simp [h]
    rw [List.map_congr_left hfun, qsum_map_add, qsum_ite_const e.2 (f e.1) nodes hnd hmem,
        ih hrest, List.map_cons, List.sum_cons]

lemma sum_over_sources (nodes : List NodeId) (hnd : nodes.Nodup) (g : NodeId → ℚ) :
    ∀ (edges : List Edge), (∀ e ∈ edges, e.1 ∈ nodes) →
      (edges.map (fun e => g e.1)).sum
        = (nodes.map (fun u => (outdegree edges u : ℚ) * g u)).sum := by
  intro edges
  induction edges with
  | nil => intro _; simp [outdegree, qsum_zero]
  | cons e rest ih =>
    intro hsrc
    have hrest := fun x hx => hsrc x (List.mem_cons_of_mem _ hx)
    have hmem : e.1 ∈ nodes := hsrc e (List.mem_cons_self e rest)
    have hfun : ∀ u ∈ nodes,
        (outdegree (e :: rest) u : ℚ) * g u
          = (outdegree rest u : ℚ) * g u + (if e.1 = u then g u else 0) := by
      intro u _
      rw [outdegree_cons]
      by_cases h : e.1 = u
      · simp only [h, if_pos rfl]
        push_cast
        ring
      · simp [h]
    rw [List.map_cons, List.sum_cons, ih hrest, List.map_congr_left hfun, qsum_map_add,
        qsum_ite_mem e.1 g nodes hnd hmem]
    ring

lemma sum_inSum_eq (edges : List Edge) (pr : NodeId → ℚ) :
    ((nodeList edges).map (fun v => inSum edges pr v)).sum
      = ((nodeList edges).map
          (fun u => (outdegree edges u : ℚ) * (pr u / (outdegree edges u : ℚ)))).sum := by
  simp only [inSum]
  rw [sum_over_inbound (nodeList edges) (nodeList_nodup edges)
        (fun u => pr u / (outdegree edges u : ℚ)) edges
        (fun e he => mem_nodeList_of_tgt he),
      sum_over_sources (nodeList edges) (nodeList_nodup edges)
        (fun u => pr u / (outdegree edges u : ℚ)) edges
        (fun e he => mem_nodeList_of_src he)]

/-! ### Mass-conservation lemmas -/

lemma natCast_length_ne_zero {edges : List Edge} (hn : nodeList edges ≠ []) :
    ((nodeList edges).length : ℚ) ≠ 0 :=
  Nat.cast_ne_zero.mpr (fun h => hn (List.length_eq_zero.mp h))

lemma sum_inSum_of_no_dangling (edges : List Edge)
    (hd : ∀ u ∈ nodeList edges, 0 < outdegree edges u) (pr : NodeId → ℚ) :
    ((nodeList edges).map (fun v => inSum edges pr v)).sum = sumPR edges pr := by
  rw [sum_inSum_eq]
  have hcancel : ∀ u ∈ nodeList edges,
      (outdegree edges u : ℚ) * (pr u / (outdegree edges u : ℚ)) = pr u := by
    intro u hu
    have h0 : (outdegree edges u : ℚ) ≠ 0 :=
      Nat.cast_ne_zero.mpr (Nat.pos_iff_ne_zero.mp (hd u hu))
    field_simp
  rw [List.map_congr_left hcancel]
  rfl

lemma sumPR_step (edges : List Edge) (d : ℚ) (hn : nodeList edges ≠ [])
    (hd : ∀ u ∈ nodeList edges, 0 < outdegree edges u) (pr : NodeId → ℚ) :
    sumPR edges (step edges d pr) = sumPR edges pr := by
  have hq : ((nodeList edges).length : ℚ) ≠ 0 := natCast_length_ne_zero hn
  have hT := sum_inSum_of_no_dangling edges hd pr
  show ((nodeList edges).map (step edges d pr)).sum = sumPR edges pr
  have hunfold : (nodeList edges).map (step edges d pr)
      = (nodeList edges).map (fun v =>
          (1 - d) * (sumPR edges pr / ((nodeList edges).length : ℚ))
            + d * inSum edges pr v) := rfl
  rw [hunfold, qsum_map_add, qsum_const, qsum_map_mul, hT]
  field_simp
  ring

lemma sumPR_init (edges : List Edge) (hn : nodeList edges ≠ []) :
    sumPR edges (initPR edges) = 1 := by
  have hq : ((nodeList edges).length : ℚ) ≠ 0 := natCast_length_ne_zero hn
  show ((nodeList edges).map (initPR edges)).sum = 1
  have hunfold : (nodeList edges).map (initPR edges)
      = (nodeList edges).map (fun _ => 1 / ((nodeList edges).length : ℚ)) := rfl
  rw [hunfold, qsum_const]
  field_simp

lemma sumPR_loop (edges : List Edge) (d tol : ℚ) (hn : nodeList edges ≠ [])
    (hd : ∀ u ∈ nodeList edges, 0 < outdegree edges u) :
    ∀ (K : ℕ) (pr : NodeId → ℚ),
      sumPR edges (pagerankLoop edges d tol K pr) = sumPR edges pr := by
  intro K
  induction K with
  | zero => intro pr; rfl
  | succ k ih =>
    intro pr
    simp only [pagerankLoop]
    split
    · exact sumPR_step edges d hn hd pr
    · rw [ih (step edges d pr), sumPR_step edges d hn hd pr]

/-! ### Non-negativity lemmas -/

lemma initPR_nonneg (edges : List Edge) : ∀ v, 0 ≤ initPR edges v := by
  intro v
  unfold initPR
  exact one_div_nonneg.mpr (Nat.cast_nonneg _)

lemma step_nonneg (edges : List Edge) (d : ℚ) (pr : NodeId → ℚ)
    (h0 : 0 ≤ d) (h1 : d ≤ 1) (hpr : ∀ v ∈ nodeList edges, 0 ≤ pr v) :
    ∀ v, 0 ≤ step edges d pr v := by
  intro v
  have hS : 0 ≤ sumPR edges pr := qsum_nonneg _ pr hpr
  have hn : (0 : ℚ) ≤ ((nodeList edges).length : ℚ) := Nat.cast_nonneg _
  have hin : 0 ≤ inSum edges pr v := by
    apply qsum_nonneg
    intro u hu
    exact div_nonneg (hpr u (src_mem_nodeList_of_mem_inbound hu)) (Nat.cast_nonneg _)
  have hA : 0 ≤ (1 - d) * (sumPR edges pr / ((nodeList edges).length : ℚ)) :=
    mul_nonneg (by linarith) (div_nonneg hS hn)
  have hB : 0 ≤ d * inSum edges pr v := mul_nonneg h0 hin
  show 0 ≤ (1 - d) * (sumPR edges pr / ((nodeList edges).length : ℚ)) + d * inSum edges pr v
  linarith

lemma prSeq_nonneg (edges : List Edge) (d : ℚ) (h0 : 0 ≤ d) (h1 : d ≤ 1) :
    ∀ k v, 0 ≤ prSeq edges d k v := by
  intro k
  induction k with
  | zero => exact initPR_nonneg edges
  | succ k ih => exact step_nonneg edges d (prSeq edges d k) h0 h1 (fun v _ => ih v)

lemma pagerankLoop_nonneg (edges : List Edge) (d tol : ℚ) (h0 : 0 ≤ d) (h1 : d ≤ 1) :
    ∀ (K : ℕ) (pr : NodeId → ℚ), (∀ v, 0 ≤ pr v) →
      ∀ v, 0 ≤ pagerankLoop edges d tol K pr v := by
  intro K
  induction K with
  | zero => intro pr hpr v; exact hpr v
  | succ k ih =>
    intro pr hpr v
    simp only [pagerankLoop]
    split
    · exact step_nonneg edges d pr h0 h1 (fun w _ => hpr w) v
    · exact ih (step edges d pr) (step_nonneg edges d pr h0 h1 (fun w _ => hpr w)) v

/-! ### Loop-trace lemmas: the loop against the stop-free snapshot sequence -/

lemma prSeq_succ_eq (edges : List Edge) (d : ℚ) (m : ℕ) :
    step edges d (prSeq edges d m) = prSeq edges d (m + 1) := rfl

lemma pagerankLoop_converge (edges : List Edge) (d tol : ℚ) :
    ∀ (k K m : ℕ), k < K → (∀ j, j < k → ¬ diffAt edges d (m + j) < tol) →
      diffAt edges d (m + k) < tol →
      pagerankLoop edges d tol K (prSeq edges d m) = prSeq edges d (m + k + 1) := by
  intro k
  induction k with
  | zero =>
    intro K m hK _ hconv
    obtain ⟨Kp, rfl⟩ : ∃ Kp, K = Kp + 1 := ⟨K - 1, by omega⟩
    have hc : l1diff (nodeList edges) (step edges d (prSeq edges d m)) (prSeq edges d m)
        < tol := by
      simpa [diffAt, prSeq] using hconv
    simp only [pagerankLoop]
    rw [if_pos hc, prSeq_succ_eq]
  | succ k ih =>
    intro K m hK hprev hconv
    obtain ⟨Kp, rfl⟩ : ∃ Kp, K = Kp + 1 := ⟨K - 1, by omega⟩
    have h0 : ¬ l1diff (nodeList edges) (step edges d (prSeq edges d m)) (prSeq edges d m)
        < tol := by
      simpa [diffAt, prSeq] using hprev 0 (by omega)
    have hnext : ∀ j, j < k → ¬ diffAt edges d (m + 1 + j) < tol := by
      intro j hj
      have h := hprev (j + 1) (by omega)
      have he : m + (j + 1) = m + 1 + j := by omega
      rw [he] at h
      exact h
    have hc : diffAt edges d (m + 1 + k) < tol := by
      have he : m + (k + 1) = m + 1 + k := by omega
      rw [he] at hconv
      exact hconv
    have hkK : k < Kp := by omega
    have hi := ih Kp (m + 1) hkK hnext hc
    have he2 : m + (k + 1) + 1 = m + 1 + k + 1 := by omega
    simp only [pagerankLoop]
    rw [if_neg h0, prSeq_succ_eq, hi, he2]

lemma pagerankLoop_exhaust (edges : List Edge) (d tol : ℚ) :
    ∀ (K m : ℕ), (∀ j, j < K → ¬ diffAt edges d (m + j) < tol) →
      pagerankLoop edges d tol K (prSeq edges d m) = prSeq edges d (m + K) := by
  intro K
  induction K with
  | zero => intro m _; simp [pagerankLoop]
  | succ k ih =>
    intro m hall
    have h0 : ¬ l1diff (nodeList edges) (step edges d (prSeq edges d m)) (prSeq edges d m)
        < tol := by
      simpa [diffAt, prSeq] using hall 0 (by omega)
    have hnext : ∀ j, j < k → ¬ diffAt edges d (m + 1 + j) < tol := by
      intro j hj
      have h := hall (j + 1) (by omega)
      have he : m + (j + 1) = m + 1 + j := by omega
      rw [he] at h
      exact h
    have hi := ih (m + 1) hnext
    have he2 : m + (k + 1) = m + 1 + k := by omega
    simp only [pagerankLoop]
    rw [if_neg h0, prSeq_succ_eq, hi, he2]

/-! ### Display-loop lemmas -/

lemma length_insertByScoreDesc (x : NodeId × ℚ) :
    ∀ l, (insertByScoreDesc x l).length = l.length + 1 := by
  intro l
  induction l with
  | nil => rfl
  | cons y ys ih =>
    simp only [insertByScoreDesc]
    split
    · simp
    · simp [ih]

lemma length_sortByScoreDesc : ∀ l, (sortByScoreDesc l).length = l.length := by
  intro l
  induction l with
  | nil => rfl
  | cons x xs ih =>
    simp only [sortByScoreDesc]
    rw [length_insertByScoreDesc, ih]
    rfl

lemma displayIndices_none_of_short (l : List (NodeId × ℚ)) (k : ℕ) (h : l.length ≤ k) :
    displayIndices l (k + 1) = none := by
  simp only [displayIndices]
  rw [List.getElem?_eq_none h]
  rcases displayIndices l k with _ | acc <;> rfl

/-! ### The update is L1-nonexpansive for damping in [0,1] -/

lemma abs_sumPR_sub_le (edges : List Edge) (a b : NodeId → ℚ) :
    |sumPR edges a - sumPR edges b| ≤ l1diff (nodeList edges) a b := by
  unfold sumPR l1diff
  rw [← qsum_map_sub]
  exact qabs_sum_le _ _

lemma abs_inSum_sub_le (edges : List Edge) (a b : NodeId → ℚ) (v : NodeId) :
    |inSum edges a v - inSum edges b v|
      ≤ ((inboundOf edges v).map (fun u => |a u - b u| / (outdegree edges u : ℚ))).sum := by
  have h1 : inSum edges a v - inSum edges b v
      = ((inboundOf edges v).map (fun u => (a u - b u) / (outdegree edges u : ℚ))).sum := by
    unfold inSum
    rw [← qsum_map_sub]
    apply congrArg List.sum
    apply List.map_congr_left
    intro u _
    rw [div_sub_div_same]
  rw [h1]
  calc |((inboundOf edges v).map (fun u => (a u - b u) / (outdegree edges u : ℚ))).sum|
      ≤ ((inboundOf edges v).map (fun u => |(a u - b u) / (outdegree edges u : ℚ)|)).sum :=
        qabs_sum_le _ _
    _ = ((inboundOf edges v).map (fun u => |a u - b u| / (outdegree edges u : ℚ))).sum := by
        apply congrArg List.sum
        apply List.map_congr_left
        intro u _
        rw [abs_div, Nat.abs_cast]

lemma sum_abs_inSum_sub_le (edges : List Edge) (a b : NodeId → ℚ) :
    ((nodeList edges).map (fun v => |inSum edges a v - inSum edges b v|)).sum
      ≤ l1diff (nodeList edges) a b := by
  calc ((nodeList edges).map (fun v => |inSum edges a v - inSum edges b v|)).sum
      ≤ ((nodeList edges).map (fun v =>
          ((inboundOf edges v).map
            (fun u => |a u - b u| / (outdegree edges u : ℚ))).sum)).sum :=
        List.sum_le_sum (fun v _ => abs_inSum_sub_le edges a b v)
    _ = (edges.map (fun e => |a e.1 - b e.1| / (outdegree edges e.1 : ℚ))).sum :=
        sum_over_inbound (nodeList edges) (nodeList_nodup edges)
          (fun u => |a u - b u| / (outdegree edges u : ℚ)) edges
          (fun e he => mem_nodeList_of_tgt he)
    _ = ((nodeList edges).map (fun u =>
          (outdegree edges u : ℚ) * (|a u - b u| / (outdegree edges u : ℚ)))).sum :=
        sum_over_sources (nodeList edges) (nodeList_nodup edges)
          (fun u => |a u - b u| / (outdegree edges u : ℚ)) edges
          (fun e he => mem_nodeList_of_src he)
    _ ≤ ((nodeList edges).map (fun u => |a u - b u|)).sum := by
        apply List.sum_le_sum
        intro u _
        by_cases h : outdegree edges u = 0
        · simp [h, abs_nonneg]
        · have hq2 : (outdegree edges u : ℚ) ≠ 0 := Nat.cast_ne_zero.mpr h
          rw [mul_comm, div_mul_cancel₀ _ hq2]
    _ = l1diff (nodeList edges) a b := rfl

lemma l1diff_step_le (edges : List Edge) (d : ℚ) (h0 : 0 ≤ d) (h1 : d ≤ 1)
    (a b : NodeId → ℚ) :
    l1diff (nodeList edges) (step edges d a) (step edges d b)
      ≤ l1diff (nodeList edges) a b := by
  by_cases hn : nodeList edges = []
  · simp [l1diff, hn]
  · have hq : ((nodeList edges).length : ℚ) ≠ 0 := natCast_length_ne_zero hn
    have hpt : ∀ v ∈ nodeList edges,
        |step edges d a v - step edges d b v|
          ≤ (1 - d) * (|sumPR edges a - sumPR edges b| / ((nodeList edges).length : ℚ))
            + d * |inSum edges a v - inSum edges b v| := by
      intro v _
      have hdiff : step edges d a v - step edges d b v
          = (1 - d) * ((sumPR edges a - sumPR edges b) / ((nodeList edges).length : ℚ))
            + d * (inSum edges a v - inSum edges b v) := by
        simp only [step]
        ring
      rw [hdiff]
      calc |(1 - d) * ((sumPR edges a - sumPR edges b) / ((nodeList edges).length : ℚ))
            + d * (inSum edges a v - inSum edges b v)|
          ≤ |(1 - d) * ((sumPR edges a - sumPR edges b) / ((nodeList edges).length : ℚ))|
            + |d * (inSum edges a v - inSum edges b v)| := abs_add _ _
        _ = (1 - d) * (|sumPR edges a - sumPR edges b| / ((nodeList edges).length : ℚ))
            + d * |inSum edges a v - inSum edges b v| := by
            rw [abs_mul, abs_mul, abs_of_nonneg (by linarith : (0:ℚ) ≤ 1 - d),
                abs_of_nonneg h0, abs_div, Nat.abs_cast]
    have hmain : l1diff (nodeList edges) (step edges d a) (step edges d b)
        ≤ ((nodeList edges).length : ℚ)
            * ((1 - d) * (|sumPR edges a - sumPR edges b| / ((nodeList edges).length : ℚ)))
          + d * ((nodeList edges).map (fun v => |inSum edges a v - inSum edges b v|)).sum := by
      calc l1diff (nodeList edges) (step edges d a) (step edges d b)
          ≤ ((nodeList edges).map (fun v =>
              (1 - d) * (|sumPR edges a - sumPR edges b| / ((nodeList edges).length : ℚ))
                + d * |inSum edges a v - inSum edges b v|)).sum := List.sum_le_sum hpt
        _ = _ := by rw [qsum_map_add, qsum_const, qsum_map_mul]
    have hcancel : ((nodeList edges).length : ℚ)
        * ((1 - d) * (|sumPR edges a - sumPR edges b| / ((nodeList edges).length : ℚ)))
        = (1 - d) * |sumPR edges a - sumPR edges b| := by
      rw [mul_comm ((nodeList edges).length : ℚ) _, mul_assoc, div_mul_cancel₀ _ hq]
    have t1 : (1 - d) * |sumPR edges a - sumPR edges b|
        ≤ (1 - d) * l1diff (nodeList edges) a b :=
      mul_le_mul_of_nonneg_left (abs_sumPR_sub_le edges a b) (by linarith)
    have t2 : d * ((nodeList edges).map (fun v => |inSum edges a v - inSum edges b v|)).sum
        ≤ d * l1diff (nodeList edges) a b :=
      mul_le_mul_of_nonneg_left (sum_abs_inSum_sub_le edges a b) h0
    have hsum : (1 - d) * l1diff (nodeList edges) a b + d * l1diff (nodeList edges) a b
        = l1diff (nodeList edges) a b := by ring
    rw [hcancel] at hmain
    linarith

/-! ### Claim theorems -/

/-- Claim C1: on a graph index with a non-empty node universe, every pass
computes, for every node v, the value
`new_pr[v] = (1 - d) * (sum_pr / n) + d * in_sum(v)` from the same
previous snapshot, where `sum_pr` is the recomputed sum of the previous
map; with a budget of one iteration and tolerance 0 the result is exactly
one application of this update to the uniform start. -/
theorem claim_c1_update_formula (edges : List Edge) (d : ℚ) (hn : nodeList edges ≠ []) :
    (∀ (pr : NodeId → ℚ) (v : NodeId), v ∈ nodeList edges →
        step edges d pr v = specNewPr edges d pr v) ∧
    (∀ v ∈ nodeList edges,
        computePagerank edges d 1 0 v = specNewPr edges d (initPR edges) v) := by
  have hstep : ∀ (pr : NodeId → ℚ) (v : NodeId), step edges d pr v = specNewPr edges d pr v :=
    fun pr v => rfl
  refine ⟨fun pr v _ => hstep pr v, fun v hv => ?_⟩
  have hone : computePagerank edges d 1 0 = step edges d (initPR edges) := by
    unfold computePagerank
    simp only [pagerankLoop]
    split
    · rfl
    · rfl
  rw [hone]
  exact hstep (initPR edges) v

/-- Witness for C1 on the two-cycle graph with damping 17/20. -/
theorem claim_c1_update_formula_witness :
    nodeList ([(1,2),(2,1)] : List Edge) ≠ [] ∧
    computePagerank ([(1,2),(2,1)] : List Edge) (17/20) 1 0 2
      = specNewPr ([(1,2),(2,1)] : List Edge) (17/20)
          (initPR ([(1,2),(2,1)] : List Edge)) 2 :=
  ⟨by decide,
   (claim_c1_update_formula ([(1,2),(2,1)] : List Edge) (17/20) (by decide)).2 2 (by decide)⟩

/-- Claim C2: if at some pass k below the budget the L1 variation drops
below the tolerance for the first time, the loop returns that freshly
built map at once; if the variation never drops below the tolerance
within the budget, the loop returns the K-th map as a normal result. -/
theorem claim_c2_stop_semantics (edges : List Edge) (d tol : ℚ) (K : ℕ) :
    (∀ k, k < K → (∀ j, j < k → ¬ diffAt edges d j < tol) → diffAt edges d k < tol →
        computePagerank edges d K tol = prSeq edges d (k + 1)) ∧
    ((∀ k, k < K → ¬ diffAt edges d k < tol) →
        computePagerank edges d K tol = prSeq edges d K) := by
  constructor
  · intro k hk hprev hconv
    have hprev0 : ∀ j, j < k → ¬ diffAt edges d (0 + j) < tol := by
      intro j hj
      simpa using hprev j hj
    have hconv0 : diffAt edges d (0 + k) < tol := by simpa using hconv
    have h := pagerankLoop_converge edges d tol k K 0 hk hprev0 hconv0
    have he : 0 + k + 1 = k + 1 := by omega
    rw [he] at h
    exact h
  · intro hall
    have hall0 : ∀ j, j < K → ¬ diffAt edges d (0 + j) < tol := by
      intro j hj
      simpa using hall j hj
    have h := pagerankLoop_exhaust edges d tol K 0 hall0
    have he : 0 + K = K := by omega
    rw [he] at h
    exact h

/-- Witness for C2 on the two-cycle graph with damping 0: the very first
pass converges and the loop stops with the budget not exhausted. -/
theorem claim_c2_stop_semantics_witness :
    diffAt ([(1,2),(2,1)] : List Edge) 0 0 < 1 ∧
    computePagerank ([(1,2),(2,1)] : List Edge) 0 2 1
      = prSeq ([(1,2),(2,1)] : List Edge) 0 1 := by
  have hdiff : diffAt ([(1,2),(2,1)] : List Edge) 0 0 < 1 := by
    norm_num [diffAt, l1diff, prSeq, step, initPR, sumPR, inSum, inboundOf, outdegree,
      nodeList, List.dedup, List.filter, List.countP]
  exact ⟨hdiff,
    (claim_c2_stop_semantics ([(1,2),(2,1)] : List Edge) 0 1 2).1 0 (by omega)
      (fun j hj => absurd hj (Nat.not_lt_zero j)) hdiff⟩

/-- Claim C3: every node u that appears in some inbound list is the
source of at least one edge, so its out-degree is at least 1 and the
divisor `outdegree[u]` used by the iterator is never zero. -/
theorem claim_c3_no_div_by_zero (edges : List Edge) (u v : NodeId)
    (h : u ∈ inboundOf edges v) :
    1 ≤ outdegree edges u ∧ (outdegree edges u : ℚ) ≠ 0 := by
  have hpos := outdegree_pos_of_mem_inbound h
  exact ⟨hpos, Nat.cast_ne_zero.mpr (Nat.pos_iff_ne_zero.mp hpos)⟩

/-- Witness for C3 on the single-edge graph. -/
theorem claim_c3_no_div_by_zero_witness :
    (1 : NodeId) ∈ inboundOf ([(1,2)] : List Edge) 2 ∧
    (1 ≤ outdegree ([(1,2)] : List Edge) 1 ∧
      (outdegree ([(1,2)] : List Edge) 1 : ℚ) ≠ 0) :=
  ⟨by decide, claim_c3_no_div_by_zero ([(1,2)] : List Edge) 1 2 (by decide)⟩

/-- Claim C4: on a non-empty graph with no dangling node, one update step
preserves the total mass exactly in rational arithmetic, and the scores
returned by the computation sum to exactly 1 for every budget and
tolerance. -/
theorem claim_c4_mass_conservation (edges : List Edge) (d : ℚ)
    (hn : nodeList edges ≠ [])
    (hd : ∀ u ∈ nodeList edges, 0 < outdegree edges u) :
    (∀ pr : NodeId → ℚ, sumPR edges (step edges d pr) = sumPR edges pr) ∧
    (∀ (K : ℕ) (tol : ℚ), sumPR edges (computePagerank edges d K tol) = 1) := by
  constructor
  · exact sumPR_step edges d hn hd
  · intro K tol
    unfold computePagerank
    rw [sumPR_loop edges d tol hn hd K (initPR edges), sumPR_init edges hn]

/-- Witness for C4 on the two-cycle graph, which has no dangling node. -/
theorem claim_c4_mass_conservation_witness :
    nodeList ([(1,2),(2,1)] : List Edge) ≠ [] ∧
    (∀ u ∈ nodeList ([(1,2),(2,1)] : List Edge),
      0 < outdegree ([(1,2),(2,1)] : List Edge) u) ∧
    sumPR ([(1,2),(2,1)] : List Edge)
      (computePagerank ([(1,2),(2,1)] : List Edge) (17/20) 3 (1/100)) = 1 :=
  ⟨by decide, by decide,
   (claim_c4_mass_conservation ([(1,2),(2,1)] : List Edge) (17/20)
      (by decide) (by decide)).2 3 (1/100)⟩

/-- Claim C5: an empty edge list yields an empty node universe and the
computation returns the empty score map, for every damping, budget and
tolerance, with no division performed and no error. -/
theorem claim_c5_empty_graph (d : ℚ) (K : ℕ) (tol : ℚ) :
    computePagerankList [] d K tol = [] := rfl

/-- Counterexample to claim C6: with damping 2, outside [0,1], the
computation is not rejected: it runs the loop and produces a full score
map (here with a negative score, since nothing validated the input). -/
theorem claim_c6_counterexample :
    computePagerankList ([(1,2)] : List Edge) 2 1 1
      = [(1, -(1/2 : ℚ)), (2, (1/2 : ℚ))] := by
  have h1 : nodeList ([(1,2)] : List Edge) = [1, 2] := by decide
  have h2 : inboundOf ([(1,2)] : List Edge) 1 = [] := by decide
  have h3 : inboundOf ([(1,2)] : List Edge) 2 = [1] := by decide
  have h4 : outdegree ([(1,2)] : List Edge) 1 = 1 := by decide
  norm_num [computePagerankList, computePagerank, pagerankLoop, step, initPR, sumPR,
    inSum, l1diff, h1, h2, h3, h4]

/-- Claim C6 amended: the reference performs no configuration validation;
for every damping, budget and tolerance, valid or not, the computation
runs to completion and produces a score map with one entry per node of a
non-empty graph, never an error. -/
theorem claim_c6_no_validation (edges : List Edge) (d : ℚ) (K : ℕ) (tol : ℚ)
    (h : edges ≠ []) : computePagerankList edges d K tol ≠ [] := by
  obtain ⟨e, rest, rfl⟩ : ∃ e rest, edges = e :: rest := by
    cases edges with
    | nil => exact absurd rfl h
    | cons e rest => exact ⟨e, rest, rfl⟩
  intro hcontra
  have hnl : nodeList (e :: rest) = [] := by
    unfold computePagerankList at hcontra
    exact List.map_eq_nil_iff.mp hcontra
  have hmem : e.1 ∈ nodeList (e :: rest) :=
    mem_nodeList_of_src (List.mem_cons_self e rest)
  rw [hnl] at hmem
  exact List.not_mem_nil _ hmem

/-- Witness for the amended C6: damping 2, budget 0 and tolerance -1 are
all invalid, yet a non-empty score map is produced. -/
theorem claim_c6_no_validation_witness :
    ([(1,2)] : List Edge) ≠ [] ∧
    computePagerankList ([(1,2)] : List Edge) 2 0 (-1) ≠ [] :=
  ⟨by decide, claim_c6_no_validation ([(1,2)] : List Edge) 2 0 (-1) (by decide)⟩

/-- Claim C7: for damping in [0,1], every score is non-negative in the
uniform start, in every later snapshot, and in the map the computation
returns, for every budget and tolerance. -/
theorem claim_c7_nonneg (edges : List Edge) (d : ℚ) (h0 : 0 ≤ d) (h1 : d ≤ 1) :
    (∀ (k : ℕ) (v : NodeId), 0 ≤ prSeq edges d k v) ∧
    (∀ (K : ℕ) (tol : ℚ) (v : NodeId), 0 ≤ computePagerank edges d K tol v) := by
  refine ⟨prSeq_nonneg edges d h0 h1, ?_⟩
  intro K tol v
  exact pagerankLoop_nonneg edges d tol h0 h1 K (initPR edges) (initPR_nonneg edges) v

/-- Witness for C7 with the default damping 17/20 on the two-cycle graph. -/
theorem claim_c7_nonneg_witness :
    (0 : ℚ) ≤ 17/20 ∧ (17/20 : ℚ) ≤ 1 ∧
    0 ≤ computePagerank ([(1,2),(2,1)] : List Edge) (17/20) 2 (1/100) 1 :=
  ⟨by norm_num, by norm_num,
   (claim_c7_nonneg ([(1,2),(2,1)] : List Edge) (17/20)
      (by norm_num) (by norm_num)).2 2 (1/100) 1⟩

/-- Claim C8: for damping in [0,1], if a pass stops the loop because the
L1 variation of the map it built is below the tolerance, then one more
pass applied to that returned map again moves it by less than the
tolerance in L1. -/
theorem claim_c8_fixed_point (edges : List Edge) (d tol : ℚ) (pr : NodeId → ℚ)
    (h0 : 0 ≤ d) (h1 : d ≤ 1)
    (hstop : l1diff (nodeList edges) (step edges d pr) pr < tol) :
    l1diff (nodeList edges) (step edges d (step edges d pr)) (step edges d pr) < tol :=
  lt_of_le_of_lt (l1diff_step_le edges d h0 h1 (step edges d pr) pr) hstop

/-- Witness for C8 on the two-cycle graph with damping 1/2, where the
uniform map converges immediately. -/
theorem claim_c8_fixed_point_witness :
    l1diff (nodeList ([(1,2),(2,1)] : List Edge))
      (step ([(1,2),(2,1)] : List Edge) (1/2) (initPR ([(1,2),(2,1)] : List Edge)))
      (initPR ([(1,2),(2,1)] : List Edge)) < 1 ∧
    l1diff (nodeList ([(1,2),(2,1)] : List Edge))
      (step ([(1,2),(2,1)] : List Edge) (1/2)
        (step ([(1,2),(2,1)] : List Edge) (1/2) (initPR ([(1,2),(2,1)] : List Edge))))
      (step ([(1,2),(2,1)] : List Edge) (1/2) (initPR ([(1,2),(2,1)] : List Edge))) < 1 := by
  have h : l1diff (nodeList ([(1,2),(2,1)] : List Edge))
      (step ([(1,2),(2,1)] : List Edge) (1/2) (initPR ([(1,2),(2,1)] : List Edge)))
      (initPR ([(1,2),(2,1)] : List Edge)) < 1 := by
    have h1 : nodeList ([(1,2),(2,1)] : List Edge) = [2, 1] := by decide
    have h2 : inboundOf ([(1,2),(2,1)] : List Edge) 1 = [2] := by decide
    have h3 : inboundOf ([(1,2),(2,1)] : List Edge) 2 = [1] := by decide
    have h4 : outdegree ([(1,2),(2,1)] : List Edge) 1 = 1 := by decide
    have h5 : outdegree ([(1,2),(2,1)] : List Edge) 2 = 1 := by decide
    norm_num [l1diff, step, initPR, sumPR, inSum, h1, h2, h3, h4, h5]
  exact ⟨h, claim_c8_fixed_point ([(1,2),(2,1)] : List Edge) (1/2) 1
    (initPR ([(1,2),(2,1)] : List Edge)) (by norm_num) (by norm_num) h⟩

/-- Claim C9: the computation is a deterministic function of the edge
list, damping, budget and tolerance: two runs on the same inputs return
the same score map. -/
theorem claim_c9_deterministic (edges : List Edge) (d : ℚ) (K : ℕ) (tol : ℚ)
    (r1 r2 : List (NodeId × ℚ))
    (h1 : r1 = computePagerankList edges d K tol)
    (h2 : r2 = computePagerankList edges d K tol) : r1 = r2 :=
  h1.trans h2.symm

/-- Witness for C9: two runs on the single-edge graph agree. -/
theorem claim_c9_deterministic_witness :
    computePagerankList ([(1,2)] : List Edge) (17/20) 3 (1/1000)
      = computePagerankList ([(1,2)] : List Edge) (17/20) 3 (1/1000) :=
  claim_c9_deterministic ([(1,2)] : List Edge) (17/20) 3 (1/1000) _ _ rfl rfl

/-- Claim C10: the top-20 display loop reads indices 0 through 19
unconditionally, so on any graph with fewer than 20 nodes the run fails
with an out-of-range access instead of printing a shorter listing. -/
theorem claim_c10_top20_overflow (edges : List Edge) (d : ℚ) (K : ℕ) (tol : ℚ)
    (h : (nodeList edges).length < 20) :
    top20Run edges d K tol = none := by
  unfold top20Run
  have hlen : (sortByScoreDesc (computePagerankList edges d K tol)).length ≤ 19 := by
    rw [length_sortByScoreDesc]
    unfold computePagerankList
    rw [List.length_map]
    omega
  exact displayIndices_none_of_short _ 19 hlen

/-- Witness for C10: the single-edge graph has 2 nodes and the top-20
display fails on it. -/
theorem claim_c10_top20_overflow_witness :
    (nodeList ([(1,2)] : List Edge)).length < 20 ∧
    top20Run ([(1,2)] : List Edge) (17/20) 1 (1/100) = none :=
  ⟨by decide, claim_c10_top20_overflow ([(1,2)] : List Edge) (17/20) 1 (1/100) (by decide)⟩
